import Mathlib

/-!
Verification of the TMIP-EMAT experiment storage and identity-management
engine, and of the `AbstractCoreModel` database-access methods.

The storage engine itself (scope registry, experiment identity table,
design membership index, measure store with source resolution, version
gate, merge engine) is modelled from the specification document, since
only its test suite and its callers appear in the available sources.
`AbstractCoreModel` is embedded directly from `emat/model/core_model.py`.
-/

namespace TmipEmat

/-- Variable (input parameter or performance-measure) names. -/
abbrev VarName := String

/-- Canonicalized variable values (after the scope's dtype coercion,
two equal values are bit-identical, so a single canonical value type
suffices for the identity logic). -/
abbrev Value := Int

/-- Integer experiment ids, unique within a scope. -/
abbrev ExpId := Nat

/-- Source ids: 0 is the authoritative core model, positive ids are
surrogate/metamodel instances. -/
abbrev SourceId := Nat

/-- Typed error classification (spec section 7). -/
inductive DbError where
  /-- Schema violation: unknown variable in a write, or missing required
  variable (surfaced as a `KeyError` in the Python API). -/
  | keyError
  /-- Scope name collision. -/
  | scopeCollision
  /-- Read without `source` while several sources hold values. -/
  | ambiguousSource
  /-- The on-disk schema version is newer than the engine understands. -/
  | versionTooNew
deriving DecidableEq, Repr

/-- Modelled from the spec: a Scope is a named schema of declared input
variables and declared output measures (section 3).  Roles and dtypes are
irrelevant to the identity/measure logic once values are canonical, so
only the declared name lists are kept. -/
structure Scope where
  name : String
  inputs : List VarName
  measures : List VarName
deriving DecidableEq, Repr

/-- One submitted parameter row: an association of variable names to values. -/
abbrev ParamRow := List (VarName × Value)

/-- Look a variable up in a submitted row. -/
def lookupVar (row : ParamRow) (v : VarName) : Option Value :=
  (row.find? (fun p => p.1 = v)).map (·.2)

/-- Modelled from the spec: canonicalization step of `assign_or_reuse`
(section 4.2) — error if a declared variable is missing from the row or
an undeclared column is present, otherwise produce the value tuple in
declared order. -/
def canonicalize (sc : Scope) (row : ParamRow) : Except DbError (List Value) :=
  if (∀ p ∈ row, p.1 ∈ sc.inputs) ∧ (∀ v ∈ sc.inputs, (lookupVar row v).isSome) then
    .ok (sc.inputs.filterMap (lookupVar row))
  else
    .error .keyError

/-- One stored measure row, keyed by (experiment id, measure name,
source id), carrying a scalar value and the run validity marker. -/
structure MeasureRow where
  exp : ExpId
  measure : VarName
  source : SourceId
  value : Value
  valid : Bool
deriving DecidableEq, Repr

/-- Modelled from the spec: the state of one backing store for a single
scope — the experiment identity table (content-addressed tuple → id map,
kept as an insertion-ordered list), the id mint counter, the design
membership index, and the measure store. -/
structure Store where
  scope : Scope
  identity : List (ExpId × List Value)
  nextId : ExpId
  designs : List (String × List ExpId)
  measures : List MeasureRow
deriving Repr

/-- Resolve a canonical tuple to its experiment id, if present. -/
def findExpId (identity : List (ExpId × List Value)) (t : List Value) : Option ExpId :=
  (identity.find? (fun p => p.2 = t)).map (·.1)

/-- The stored canonical input tuple of an experiment id. -/
def expTuple (st : Store) (e : ExpId) : Option (List Value) :=
  (st.identity.find? (fun p => p.1 = e)).map (·.2)

/-- Modelled from the spec: `assign_or_reuse` at the canonical-tuple level
(section 4.2) — reuse the id of a value-equal stored tuple, otherwise mint
the next integer id and store the tuple. -/
def assignOrReuse (st : Store) (t : List Value) : ExpId × Store :=
  match findExpId st.identity t with
  | some e => (e, st)
  | none =>
      (st.nextId,
       { st with
          identity := st.identity ++ [(st.nextId, t)],
          nextId := st.nextId + 1 })

/-- Assign-or-reuse a whole batch of canonical tuples in order. -/
def assignAll (st : Store) : List (List Value) → List ExpId × Store
  | [] => ([], st)
  | t :: rest =>
      let p := assignOrReuse st t
      let q := assignAll p.2 rest
      (p.1 :: q.1, q.2)

theorem assignOrReuse_scope (st : Store) (t : List Value) :
    (assignOrReuse st t).2.scope = st.scope := by
  unfold assignOrReuse
  cases findExpId st.identity t <;> rfl

theorem assignOrReuse_designs (st : Store) (t : List Value) :
    (assignOrReuse st t).2.designs = st.designs := by
  unfold assignOrReuse
  cases findExpId st.identity t <;> rfl

theorem assignOrReuse_measures (st : Store) (t : List Value) :
    (assignOrReuse st t).2.measures = st.measures := by
  unfold assignOrReuse
  cases findExpId st.identity t <;> rfl

/-- The identity table only ever grows by appending. -/
theorem assignOrReuse_identity_append (st : Store) (t : List Value) :
    ∃ ext, (assignOrReuse st t).2.identity = st.identity ++ ext := by
  unfold assignOrReuse
  cases h : findExpId st.identity t with
  | some e => exact ⟨[], by simp⟩
  | none => exact ⟨[(st.nextId, t)], rfl⟩

/-- Resolutions are stable under appending new identity entries. -/
theorem findExpId_append_of_some {identity : List (ExpId × List Value)}
    {t : List Value} {e : ExpId} (ext : List (ExpId × List Value))
    (h : findExpId identity t = some e) :
    findExpId (identity ++ ext) t = some e := by
  unfold findExpId at *
  rw [List.find?_append]
  cases hf : identity.find? (fun p => decide (p.2 = t)) with
  | none => rw [hf] at h; simp at h
  | some p => rw [hf] at h; simp [Option.or, hf, h]

/-! ### Design membership index and naming (spec section 4.3) -/

/-- Decimal digit to character. -/
def digitChar (d : Nat) : Char :=
  if d = 0 then '0' else if d = 1 then '1' else if d = 2 then '2'
  else if d = 3 then '3' else if d = 4 then '4' else if d = 5 then '5'
  else if d = 6 then '6' else if d = 7 then '7' else if d = 8 then '8'
  else '9'

/-- Character back to decimal digit (inverse of `digitChar` below 10). -/
def charDigit (c : Char) : Nat :=
  if c = '0' then 0 else if c = '1' then 1 else if c = '2' then 2
  else if c = '3' then 3 else if c = '4' then 4 else if c = '5' then 5
  else if c = '6' then 6 else if c = '7' then 7 else if c = '8' then 8
  else 9

theorem charDigit_digitChar {d : Nat} (h : d < 10) : charDigit (digitChar d) = d := by
  interval_cases d <;> rfl

/-- Decimal rendering of a natural number, used for design name suffixes. -/
def natSuffix (n : Nat) : String :=
  String.mk (((Nat.digits 10 n).map digitChar).reverse)

theorem natSuffix_injective {m n : Nat} (h : natSuffix m = natSuffix n) : m = n := by
  have hdata := congrArg String.data h
  simp only [natSuffix] at hdata
  have h2 : (Nat.digits 10 m).map digitChar = (Nat.digits 10 n).map digitChar :=
    List.reverse_injective hdata
  have h3 : (Nat.digits 10 m).map (fun d => charDigit (digitChar d)) =
      (Nat.digits 10 n).map (fun d => charDigit (digitChar d)) := by
    simpa [List.map_map, Function.comp] using congrArg (List.map charDigit) h2
  have hm : (Nat.digits 10 m).map (fun d => charDigit (digitChar d)) = Nat.digits 10 m := by
    rw [List.map_congr_left (fun d hd => charDigit_digitChar (Nat.digits_lt_base (by norm_num) hd))]
    exact List.map_id _
  have hn : (Nat.digits 10 n).map (fun d => charDigit (digitChar d)) = Nat.digits 10 n := by
    rw [List.map_congr_left (fun d hd => charDigit_digitChar (Nat.digits_lt_base (by norm_num) hd))]
    exact List.map_id _
  have h4 : Nat.digits 10 m = Nat.digits 10 n := by rw [← hm, ← hn, h3]
  have := congrArg (Nat.ofDigits 10) h4
  simpa [Nat.ofDigits_digits] using this

/-- The candidate design name with integer suffix `k`: `base_k`. -/
def candName (base : String) (k : Nat) : String :=
  base ++ "_" ++ natSuffix k

theorem candName_inj {base : String} {k k' : Nat}
    (h : candName base k = candName base k') : k = k' := by
  have hdata := congrArg String.data h
  simp only [candName, String.data_append] at hdata
  have : (natSuffix k).data = (natSuffix k').data := List.append_cancel_left hdata
  exact natSuffix_injective (String.ext this)

theorem candName_ne_base (base : String) (k : Nat) : candName base k ≠ base := by
  intro h
  have hdata := congrArg String.data h
  simp only [candName, String.data_append] at hdata
  have hlen := congrArg List.length hdata
  simp only [List.length_append, List.length_singleton] at hlen
  omega

theorem length_filter_lt_of_mem {l : List String} {x : String} (h : x ∈ l) :
    (l.filter (fun u => u ≠ x)).length < l.length := by
  induction l with
  | nil => cases h
  | cons a t ih =>
      by_cases hax : a = x
      · subst hax
        simp only [List.filter_cons]
        have : (decide ¬(a = a)) = false := by simp
        rw [this]
        exact Nat.lt_succ_of_le (List.length_filter_le _ t)
      · have hxt : x ∈ t := by
          cases h with
          | head => exact absurd rfl hax
          | tail _ h => exact h
        simp only [List.filter_cons]
        by_cases hne : a = x
        · exact absurd hne hax
        · have : (decide ¬(a = x)) = true := by simp [hne]
          rw [this]
          simpa using Nat.succ_lt_succ (ih hxt)

/-- Modelled from the spec: search for an unused design name `base_k`,
`base_(k+1)`, … (section 4.3).  Names already checked are filtered out of
`used` so that the recursion terminates; by injectivity of the suffix this
visits exactly the candidates `base_k`, `base_(k+1)`, … in order and
returns the first unused one. -/
def freshNameFrom (used : List String) (base : String) (k : Nat) : String :=
  if h : candName base k ∈ used then
    freshNameFrom (used.filter (fun u => u ≠ candName base k)) base (k + 1)
  else candName base k
termination_by used.length
decreasing_by exact length_filter_lt_of_mem h

theorem freshNameFrom_spec (used : List String) (base : String) (k : Nat) :
    (∃ k', k ≤ k' ∧ freshNameFrom used base k = candName base k') ∧
      freshNameFrom used base k ∉ used := by
  induction used, base, k using freshNameFrom.induct with
  | case1 used base k hmem ih =>
      rw [freshNameFrom, dif_pos hmem]
      obtain ⟨⟨k', hk', heq⟩, hnotin⟩ := ih
      refine ⟨⟨k', by omega, heq⟩, ?_⟩
      intro hin
      by_cases hc : freshNameFrom (used.filter (fun u => u ≠ candName base k)) base (k + 1) =
          candName base k
      · rw [heq] at hc
        have := candName_inj hc
        omega
      · apply hnotin
        simp only [List.mem_filter]
        exact ⟨hin, by simpa using hc⟩
  | case2 used base k hmem =>
      rw [freshNameFrom, dif_neg hmem]
      exact ⟨⟨k, le_refl _, rfl⟩, hmem⟩

/-- Look a design name up in the membership index. -/
def lookupDesign (designs : List (String × List ExpId)) (name : String) :
    Option (List ExpId) :=
  (designs.find? (fun d => d.1 = name)).map (·.2)

/-- Set-equality of two experiment-id lists. -/
def sameIdSet (a b : List ExpId) : Bool :=
  (a.all (fun e => e ∈ b)) && (b.all (fun e => e ∈ a))

/-- Modelled from the spec: `register` of the design membership index
(section 4.3) — create an unused name; no-op on re-registration of a
set-equal id set; otherwise synthesize a fresh `name_k` (k = 2, 3, …)
and register under it, returning the chosen name. -/
def registerDesign (designs : List (String × List ExpId)) (name : String)
    (ids : List ExpId) : String × List (String × List ExpId) :=
  match lookupDesign designs name with
  | none => (name, designs ++ [(name, ids)])
  | some stored =>
      if sameIdSet stored ids then
        (name, designs)
      else
        let fresh := freshNameFrom (designs.map (·.1)) name 2
        (fresh, designs ++ [(fresh, ids)])

/-! ### Parameter writes (spec sections 4.2, 4.3, 6) -/

/-- Modelled from the spec: `write_experiment_parameters` — validate and
canonicalize every submitted row against the scope (failing fast, before
any partial write, on a missing or undeclared variable), route the tuples
through the identity table, and register the design name, returning the
(possibly disambiguated) design name and the assigned experiment ids. -/
def write_experiment_parameters (st : Store) (designName : String)
    (rows : List ParamRow) : Except DbError (String × List ExpId × Store) :=
  match rows.mapM (canonicalize st.scope) with
  | .error e => .error e
  | .ok ts =>
      let p := assignAll st ts
      let reg := registerDesign p.2.designs designName p.1
      .ok (reg.1, p.1, { p.2 with designs := reg.2 })

/-! ### Measure store with source resolution (spec section 4.4) -/

/-- Does a stored row match the composite key (experiment id, measure
name, source id)? -/
def keyMatch (r : MeasureRow) (e : ExpId) (m : VarName) (s : SourceId) : Bool :=
  decide (r.exp = e ∧ r.measure = m ∧ r.source = s)

/-- Update-or-insert one measure value at its composite key; rows at
other keys are left untouched. -/
def upsertMeasure (ms : List MeasureRow) (e : ExpId) (m : VarName)
    (s : SourceId) (v : Value) (vd : Bool) : List MeasureRow :=
  if ms.any (fun r => keyMatch r e m s) then
    ms.map (fun r => if keyMatch r e m s then { r with value := v, valid := vd } else r)
  else
    ms ++ [⟨e, m, s, v, vd⟩]

/-- One submitted measure row: an experiment id with a subset of the
declared measure columns. -/
abbrev MeasureInputRow := ExpId × List (VarName × Value)

/-- Upsert every specified measure column of one submitted row. -/
def applyMeasureCols (e : ExpId) (source : SourceId) (ms : List MeasureRow)
    (cols : List (VarName × Value)) : List MeasureRow :=
  cols.foldl (fun ms p => upsertMeasure ms e p.1 source p.2 true) ms

/-- Upsert every submitted measure row in order. -/
def applyMeasureRows (source : SourceId) (ms : List MeasureRow)
    (rows : List MeasureInputRow) : List MeasureRow :=
  rows.foldl (fun ms r => applyMeasureCols r.1 source ms r.2) ms

/-- Modelled from the spec: `write_experiment_measures` — every mentioned
measure column must be declared in the scope and every experiment id must
already exist in the identity table (referential invariant); specified
columns are upserted per (experiment, measure, source) key, unspecified
columns are left untouched (partial writes are additive). -/
def write_experiment_measures (st : Store) (source : SourceId)
    (rows : List MeasureInputRow) : Except DbError Store :=
  if (∀ r ∈ rows, ∀ p ∈ r.2, p.1 ∈ st.scope.measures) ∧
      (∀ r ∈ rows, ∃ q ∈ st.identity, q.1 = r.1) then
    .ok { st with measures := applyMeasureRows source st.measures rows }
  else
    .error .keyError

/-- The experiment ids belonging to a design (empty when absent). -/
def designExps (st : Store) (design : String) : List ExpId :=
  (lookupDesign st.designs design).getD []

/-- The stored measure rows for one design, optionally restricted to
validity-flagged runs. -/
def rowsForDesign (st : Store) (design : String) (validOnly : Bool) :
    List MeasureRow :=
  st.measures.filter (fun r => decide (r.exp ∈ designExps st design) &&
    (!validOnly || r.valid))

/-- Does some measure in `rows` hold values from more than one source? -/
def ambiguousSources (rows : List MeasureRow) : Bool :=
  rows.any (fun r => rows.any (fun r2 => decide (r2.measure = r.measure) &&
    decide (r2.source ≠ r.source)))

/-- Modelled from the spec: `read_experiment_measures` — with an explicit
`source`, return exactly that source's rows; with `source` omitted, fail
with an ambiguous-source error when some requested measure holds values
from more than one source, otherwise return the unambiguous rows. -/
def read_experiment_measures (st : Store) (design : String)
    (source : Option SourceId) (validOnly : Bool := true) :
    Except DbError (List MeasureRow) :=
  let rows := rowsForDesign st design validOnly
  match source with
  | some s => .ok (rows.filter (fun r => r.source = s))
  | none =>
      if ambiguousSources rows then .error .ambiguousSource
      else .ok rows

/-- Modelled from the spec: `read_experiment_measure_sources` — the
distinct source ids holding data for the design. -/
def read_experiment_measure_sources (st : Store) (design : String) :
    List SourceId :=
  ((rowsForDesign st design true).map (·.source)).dedup

/-- The stored value at one (experiment, measure, source) key. -/
def lookupMeasureValue (st : Store) (e : ExpId) (m : VarName) (s : SourceId) :
    Option Value :=
  (st.measures.find? (fun r => keyMatch r e m s)).map (·.value)

/-! ### Schema version and migration gate (spec section 4.5) -/

/-- An on-disk store: a stored schema-version marker plus the data. -/
structure OnDisk where
  version : Nat
  store : Store

/-- Modelled from the spec: one migration step, a pure transformation of
the on-disk layout raising the version marker by one. -/
def migrateOne (d : OnDisk) : OnDisk :=
  { d with version := d.version + 1 }

/-- Apply migrations in sequence until the target version is reached. -/
def migrateTo (v : Nat) (d : OnDisk) : OnDisk :=
  if d.version < v then migrateTo v (migrateOne d) else d
termination_by v - d.version
decreasing_by simp only [migrateOne]; omega

/-- Modelled from the spec: the open gate (section 4.5) — fail when the
stored version is newer than the engine understands; migrate and warn
(second component `true`) when it is older; open silently when equal. -/
def openStore (engineVersion : Nat) (d : OnDisk) :
    Except DbError (OnDisk × Bool) :=
  if d.version > engineVersion then .error .versionTooNew
  else if d.version < engineVersion then .ok (migrateTo engineVersion d, true)
  else .ok (d, false)

/-! ### Merge engine (spec section 4.6) -/

/-- Map a donor experiment id through the donor-to-target id pairing
computed by the replay. -/
def remapId (pairs : List (ExpId × ExpId)) (e : ExpId) : ExpId :=
  (((pairs.find? (fun p => p.1 = e)).map (·.2))).getD e

/-- Modelled from the spec: merge one donor design into the target
(section 4.6) — resolve the design's donor tuples, validate them against
the scope, replay them through the target's identity table, register the
design name via the section 4.3 rule, and copy the donor measure values
for those experiments under their original source ids.  A design whose
rows fail validation is rejected whole, leaving the target unmodified. -/
def mergeDesign (target donor : Store) (name : String) (ids : List ExpId) :
    Store :=
  match ids.mapM (expTuple donor) with
  | none => target
  | some ts =>
      if ts.all (fun t => t.length = target.scope.inputs.length) then
        let p := assignAll target ts
        let reg := registerDesign p.2.designs name p.1
        let pairs := ids.zip p.1
        let donorRows := donor.measures.filter (fun r => decide (r.exp ∈ ids))
        let ms := donorRows.foldl
          (fun ms r => upsertMeasure ms (remapId pairs r.exp) r.measure r.source r.value r.valid)
          p.2.measures
        { p.2 with designs := reg.2, measures := ms }
      else target

/-- Modelled from the spec: `merge_database` — requires a structurally
equal scope, then merges every donor design in order, each through the
target's identity table. -/
def merge_database (target donor : Store) : Except DbError Store :=
  if donor.scope = target.scope then
    .ok (donor.designs.foldl (fun t d => mergeDesign t donor d.1 d.2) target)
  else
    .error .scopeCollision

/-! ### `AbstractCoreModel` (embedded from `emat/model/core_model.py`) -/

/-- Errors surfaced by the model-facing API: Python `ValueError` plus
errors propagated from the database layer. -/
inductive ModelError where
  | valueError
  | dbError (e : DbError)
deriving DecidableEq, Repr

/-- The `AbstractCoreModel` state relevant to database access: the
optional default database, the scope, and the metamodel id
(`core_model.py` line 87; 0 for a core model per the constructor
default, a positive id for a metamodel). -/
structure AbstractCoreModel where
  db : Option Store
  scope : Scope
  metamodel_id : SourceId

/-- The constructor default: `metamodel_id=0` (not a meta-model). -/
def AbstractCoreModel.mk0 (db : Option Store) (scope : Scope) :
    AbstractCoreModel :=
  ⟨db, scope, 0⟩

/-- The `db = db if db is not None else self.db` resolution used by the
read and run methods of `AbstractCoreModel`. -/
def resolveDb (m : AbstractCoreModel) (dbArg : Option Store) : Option Store :=
  match dbArg with
  | some d => some d
  | none => m.db

/-- `AbstractCoreModel.read_experiments` (`core_model.py` lines 284-316):
resolve the database argument, raise `ValueError` when none is available,
otherwise delegate to the database read of the joined table. -/
def AbstractCoreModel.read_experiments (m : AbstractCoreModel)
    (designName : String) (dbArg : Option Store) :
    Except ModelError (List MeasureRow) :=
  match resolveDb m dbArg with
  | none => .error .valueError
  | some st => .ok (rowsForDesign st designName true)

/-- `AbstractCoreModel.read_experiment_parameters` (`core_model.py`
lines 318-365): resolve the database argument, raise `ValueError` when
none is available, otherwise delegate to the database parameter read. -/
def AbstractCoreModel.read_experiment_parameters (m : AbstractCoreModel)
    (designName : String) (dbArg : Option Store) :
    Except ModelError (List (ExpId × List Value)) :=
  match resolveDb m dbArg with
  | none => .error .valueError
  | some st =>
      .ok (st.identity.filter (fun p => decide (p.1 ∈ designExps st designName)))

/-- `AbstractCoreModel.read_experiment_measures` (`core_model.py`
lines 367-405): resolve the database argument, raise `ValueError` when
none is available, otherwise delegate to the database measure read
(which performs source resolution). -/
def AbstractCoreModel.read_experiment_measures (m : AbstractCoreModel)
    (designName : String) (dbArg : Option Store) :
    Except ModelError (List MeasureRow) :=
  match resolveDb m dbArg with
  | none => .error .valueError
  | some st => (TmipEmat.read_experiment_measures st designName none).mapError .dbError

/-- `AbstractCoreModel.run_experiments` (`core_model.py` lines 480-607),
restricted to its database interaction: the simulation itself is external
and its outcome rows are taken as input.  The database is resolved from
the argument or the model default (line 542-543); when one is available
the outcome measures are written with
`db.write_experiment_measures(self.scope.name, self.metamodel_id, outcomes)`
(lines 590-591); with no database the results are simply not stored. -/
def AbstractCoreModel.run_experiments (m : AbstractCoreModel)
    (dbArg : Option Store) (outcomes : List MeasureInputRow) :
    Except ModelError (Option Store) :=
  match resolveDb m dbArg with
  | none => .ok none
  | some st =>
      match write_experiment_measures st m.metamodel_id outcomes with
      | .error e => .error (.dbError e)
      | .ok st2 => .ok (some st2)

/-! ### Identity table lemmas -/

theorem assignOrReuse_of_found {st : Store} {t : List Value} {e : ExpId}
    (h : findExpId st.identity t = some e) : assignOrReuse st t = (e, st) := by
  unfold assignOrReuse
  rw [h]

/-- After `assignOrReuse`, the tuple resolves to the returned id. -/
theorem assignOrReuse_resolved (st : Store) (t : List Value) :
    findExpId (assignOrReuse st t).2.identity t = some (assignOrReuse st t).1 := by
  unfold assignOrReuse
  cases h : findExpId st.identity t with
  | some e => simpa using h
  | none =>
      simp only
      unfold findExpId at *
      rw [List.find?_append]
      have hnone : st.identity.find? (fun p => decide (p.2 = t)) = none := by
        cases hf : st.identity.find? (fun p => decide (p.2 = t)) with
        | none => rfl
        | some p => rw [hf] at h; simp at h
      rw [hnone]
      simp

theorem assignAll_scope (st : Store) (ts : List (List Value)) :
    (assignAll st ts).2.scope = st.scope := by
  induction ts generalizing st with
  | nil => rfl
  | cons t rest ih =>
      simp only [assignAll]
      rw [ih, assignOrReuse_scope]

theorem assignAll_designs (st : Store) (ts : List (List Value)) :
    (assignAll st ts).2.designs = st.designs := by
  induction ts generalizing st with
  | nil => rfl
  | cons t rest ih =>
      simp only [assignAll]
      rw [ih, assignOrReuse_designs]

theorem assignAll_measures (st : Store) (ts : List (List Value)) :
    (assignAll st ts).2.measures = st.measures := by
  induction ts generalizing st with
  | nil => rfl
  | cons t rest ih =>
      simp only [assignAll]
      rw [ih, assignOrReuse_measures]

theorem assignAll_identity_append (st : Store) (ts : List (List Value)) :
    ∃ ext, (assignAll st ts).2.identity = st.identity ++ ext := by
  induction ts generalizing st with
  | nil => exact ⟨[], by simp [assignAll]⟩
  | cons t rest ih =>
      simp only [assignAll]
      obtain ⟨e1, he1⟩ := assignOrReuse_identity_append st t
      obtain ⟨e2, he2⟩ := ih (assignOrReuse st t).2
      exact ⟨e1 ++ e2, by rw [he2, he1, List.append_assoc]⟩

/-- Every tuple of the batch resolves, in the final identity table, to the
id assigned for it (positionally). -/
theorem assignAll_resolves (st : Store) (ts : List (List Value)) :
    List.Forall₂ (fun t e => findExpId (assignAll st ts).2.identity t = some e)
      ts (assignAll st ts).1 := by
  induction ts generalizing st with
  | nil => exact List.Forall₂.nil
  | cons t rest ih =>
      simp only [assignAll]
      refine List.Forall₂.cons ?_ (ih (assignOrReuse st t).2)
      obtain ⟨ext, hext⟩ := assignAll_identity_append (assignOrReuse st t).2 rest
      rw [hext]
      exact findExpId_append_of_some ext (assignOrReuse_resolved st t)

/-- A batch whose tuples all already resolve is assigned without any
change to the store: the same ids come back and nothing is minted. -/
theorem assignAll_of_resolved {st : Store} {ts : List (List Value)} {es : List ExpId}
    (h : List.Forall₂ (fun t e => findExpId st.identity t = some e) ts es) :
    assignAll st ts = (es, st) := by
  induction h with
  | nil => rfl
  | cons h1 _ ih =>
      simp only [assignAll]
      rw [assignOrReuse_of_found h1]
      simp only
      rw [ih]

/-! ### Shared concrete fixtures for witnesses -/

/-- A small concrete scope: one input variable, one measure. -/
def scopeEx : Scope := ⟨"test", ["x"], ["m"]⟩

/-- A freshly initialized store for `scopeEx`. -/
def storeEx0 : Store := ⟨scopeEx, [], 0, [], []⟩

/-! ### Claims -/

/-- Claim C1: for every Scope and every complete input-variable value
tuple batch, writing the batch a second time under the same Scope (same
or different design name) resolves each tuple to the same experiment id
as the first write, and the identity table does not grow for the repeat
submission (nor does the id mint counter move). -/
theorem claim_C1 (st : Store) (d1 d2 n1 : String) (rows : List ParamRow)
    (es : List ExpId) (st1 : Store)
    (h : write_experiment_parameters st d1 rows = .ok (n1, es, st1)) :
    ∃ n2 st2, write_experiment_parameters st1 d2 rows = .ok (n2, es, st2) ∧
      st2.identity = st1.identity ∧ st2.nextId = st1.nextId := by
  unfold write_experiment_parameters at h ⊢
  cases hmap : rows.mapM (canonicalize st.scope) with
  | error e => rw [hmap] at h; exact absurd h (by simp)
  | ok ts =>
      rw [hmap] at h
      simp only [Except.ok.injEq, Prod.mk.injEq] at h
      obtain ⟨hn1, hes, hst1⟩ := h
      have hscope1 : st1.scope = st.scope := by
        rw [← hst1]; exact assignAll_scope st ts
      have hid1 : st1.identity = (assignAll st ts).2.identity := by
        rw [← hst1]
      have hnext1 : st1.nextId = (assignAll st ts).2.nextId := by
        rw [← hst1]
      rw [hscope1, hmap]
      have hres : List.Forall₂ (fun t e => findExpId st1.identity t = some e) ts es := by
        rw [hid1, ← hes]
        exact assignAll_resolves st ts
      dsimp only
      rw [assignAll_of_resolved hres]
      exact ⟨_, _, rfl, rfl, rfl⟩

theorem claim_C1_witness :
    ∃ n2 st2,
      write_experiment_parameters
        ⟨scopeEx, [(0, [3])], 1, [("lhs", [0])], []⟩ "lhs_other" [[("x", 3)]] =
        .ok (n2, [0], st2) ∧
      st2.identity = (⟨scopeEx, [(0, [3])], 1, [("lhs", [0])], []⟩ : Store).identity ∧
      st2.nextId = (⟨scopeEx, [(0, [3])], 1, [("lhs", [0])], []⟩ : Store).nextId :=
  claim_C1 storeEx0 "lhs" "lhs_other" "lhs" [[("x", 3)]] [0]
    ⟨scopeEx, [(0, [3])], 1, [("lhs", [0])], []⟩ rfl

/-- Claim C4: registering a design name that is already in use with an
experiment-id set that is set-equal to the stored one is a no-op — the
membership index is unchanged and the existing name is returned. -/
theorem claim_C4 (designs : List (String × List ExpId)) (name : String)
    (ids stored : List ExpId) (h1 : lookupDesign designs name = some stored)
    (h2 : sameIdSet stored ids = true) :
    registerDesign designs name ids = (name, designs) := by
  unfold registerDesign
  rw [h1]
  simp [h2]

theorem claim_C4_witness :
    registerDesign [("d", [0, 1])] "d" [1, 0, 1] = ("d", [("d", [0, 1])]) :=
  claim_C4 [("d", [0, 1])] "d" [1, 0, 1] [0, 1] (by decide) (by decide)

/-- Claim C5: registering a design name already in use with a differing
experiment-id set does not overwrite the existing design — a fresh name
of the form `name_k` (k ≥ 2) is synthesized and returned, the original
design remains readable with its stored ids, and the new id set is
readable under the chosen fresh name. -/
theorem claim_C5 (designs : List (String × List ExpId)) (name : String)
    (ids stored : List ExpId) (h1 : lookupDesign designs name = some stored)
    (h2 : sameIdSet stored ids = false) :
    (∃ k, 2 ≤ k ∧ (registerDesign designs name ids).1 = candName name k) ∧
    (registerDesign designs name ids).1 ≠ name ∧
    lookupDesign (registerDesign designs name ids).2 name = some stored ∧
    lookupDesign (registerDesign designs name ids).2
      (registerDesign designs name ids).1 = some ids := by
  obtain ⟨⟨k, hk2, hkeq⟩, hnot⟩ := freshNameFrom_spec (designs.map (·.1)) name 2
  have hreg : registerDesign designs name ids =
      (freshNameFrom (designs.map (·.1)) name 2,
       designs ++ [(freshNameFrom (designs.map (·.1)) name 2, ids)]) := by
    unfold registerDesign
    rw [h1]
    simp [h2]
  refine ⟨⟨k, hk2, by rw [hreg]; exact hkeq⟩, ?_, ?_, ?_⟩
  · rw [hreg]
    simp only
    rw [hkeq]
    exact candName_ne_base name k
  · rw [hreg]
    simp only [lookupDesign, List.find?_append]
    have := h1
    unfold lookupDesign at this
    cases hf : designs.find? (fun d => decide (d.1 = name)) with
    | none => rw [hf] at this; simp at this
    | some q =>
        rw [hf] at this
        simp only [Option.map_some'] at this
        simp [Option.or, this]
  · rw [hreg]
    simp only [lookupDesign, List.find?_append]
    have hnone : designs.find? (fun d => decide (d.1 = freshNameFrom (designs.map (·.1)) name 2)) = none := by
      rw [List.find?_eq_none]
      intro d hd hdec
      apply hnot
      have : d.1 = freshNameFrom (designs.map (·.1)) name 2 := of_decide_eq_true hdec
      rw [← this]
      exact List.mem_map_of_mem _ hd
    rw [hnone]
    simp [Option.or]

theorem claim_C5_witness :
    (∃ k, 2 ≤ k ∧ (registerDesign [("d", [0])] "d" [1]).1 = candName "d" k) ∧
    (registerDesign [("d", [0])] "d" [1]).1 ≠ "d" ∧
    lookupDesign (registerDesign [("d", [0])] "d" [1]).2 "d" = some [0] ∧
    lookupDesign (registerDesign [("d", [0])] "d" [1]).2
      (registerDesign [("d", [0])] "d" [1]).1 = some [1] :=
  claim_C5 [("d", [0])] "d" [1] [0] (by decide) (by decide)

/-! ### Measure store lemmas -/

theorem keyMatch_update (r : MeasureRow) (v : Value) (vd : Bool)
    (e : ExpId) (m : VarName) (s : SourceId) :
    keyMatch { r with value := v, valid := vd } e m s = keyMatch r e m s := rfl

theorem find?_map_replace {ms : List MeasureRow} {e : ExpId} {m : VarName}
    {s : SourceId} {v : Value} {vd : Bool} {e1 : ExpId} {m1 : VarName}
    {s1 : SourceId} (hne : m1 ≠ m) :
    (ms.map (fun r => if keyMatch r e m s then { r with value := v, valid := vd } else r)).find?
        (fun r => keyMatch r e1 m1 s1) =
      ms.find? (fun r => keyMatch r e1 m1 s1) := by
  induction ms with
  | nil => rfl
  | cons r t ih =>
      simp only [List.map_cons]
      by_cases hk : keyMatch r e m s
      · rw [if_pos hk]
        have h1 : keyMatch r e1 m1 s1 = false := by
          cases hq : keyMatch r e1 m1 s1
          · rfl
          · exfalso
            have hmm : r.measure = m := (of_decide_eq_true hk).2.1
            have hm1 : r.measure = m1 := (of_decide_eq_true hq).2.1
            exact hne (by rw [← hm1, hmm])
        rw [List.find?_cons_of_neg _ (by simp [keyMatch_update, h1]),
            List.find?_cons_of_neg _ (by simp [h1])]
        exact ih
      · rw [if_neg hk]
        cases hq : keyMatch r e1 m1 s1
        · rw [List.find?_cons_of_neg _ (by simp [hq]),
              List.find?_cons_of_neg _ (by simp [hq])]
          exact ih
        · have e1' : List.find? (fun r => keyMatch r e1 m1 s1)
              (r :: (t.map (fun r => if keyMatch r e m s then
                { r with value := v, valid := vd } else r))) = some r :=
            List.find?_cons_of_pos _ hq
          have e2' : List.find? (fun r => keyMatch r e1 m1 s1) (r :: t) = some r :=
            List.find?_cons_of_pos _ hq
          rw [e1', e2']

theorem find?_upsert_ne_measure (ms : List MeasureRow) (e : ExpId) (m : VarName)
    (s : SourceId) (v : Value) (vd : Bool) {m1 : VarName} (hne : m1 ≠ m)
    (e1 : ExpId) (s1 : SourceId) :
    (upsertMeasure ms e m s v vd).find? (fun r => keyMatch r e1 m1 s1) =
      ms.find? (fun r => keyMatch r e1 m1 s1) := by
  unfold upsertMeasure
  by_cases hany : ms.any (fun r => keyMatch r e m s)
  · rw [if_pos hany]
    exact find?_map_replace hne
  · rw [if_neg hany, List.find?_append]
    have hkm : keyMatch ⟨e, m, s, v, vd⟩ e1 m1 s1 = false := by
      unfold keyMatch
      exact decide_eq_false (fun hc => hne hc.2.1.symm)
    have hnone : ([(⟨e, m, s, v, vd⟩ : MeasureRow)]).find?
        (fun r => keyMatch r e1 m1 s1) = none := by
      rw [List.find?_eq_none]
      intro x hx
      rw [List.mem_singleton] at hx
      subst hx
      simp [hkm]
    rw [hnone, Option.or_none]

theorem find?_applyMeasureCols_ne {m1 : VarName} (e0 : ExpId) (source : SourceId)
    (e1 : ExpId) (s1 : SourceId) :
    ∀ (cols : List (VarName × Value)) (ms : List MeasureRow),
      (∀ p ∈ cols, p.1 ≠ m1) →
      (applyMeasureCols e0 source ms cols).find? (fun r => keyMatch r e1 m1 s1) =
        ms.find? (fun r => keyMatch r e1 m1 s1)
  | [], ms, _ => rfl
  | p :: t, ms, h => by
      have h1 : p.1 ≠ m1 := h p (List.mem_cons_self _ _)
      have ht : ∀ q ∈ t, q.1 ≠ m1 := fun q hq => h q (List.mem_cons_of_mem _ hq)
      show (applyMeasureCols e0 source (upsertMeasure ms e0 p.1 source p.2 true) t).find? _ = _
      rw [find?_applyMeasureCols_ne e0 source e1 s1 t _ ht]
      exact find?_upsert_ne_measure ms e0 p.1 source p.2 true (Ne.symm h1) e1 s1

theorem find?_applyMeasureRows_ne {m1 : VarName} (source : SourceId)
    (e1 : ExpId) (s1 : SourceId) :
    ∀ (rows : List MeasureInputRow) (ms : List MeasureRow),
      (∀ r ∈ rows, ∀ p ∈ r.2, p.1 ≠ m1) →
      (applyMeasureRows source ms rows).find? (fun r => keyMatch r e1 m1 s1) =
        ms.find? (fun r => keyMatch r e1 m1 s1)
  | [], ms, _ => rfl
  | r :: t, ms, h => by
      have h1 : ∀ p ∈ r.2, p.1 ≠ m1 := h r (List.mem_cons_self _ _)
      have ht : ∀ q ∈ t, ∀ p ∈ q.2, p.1 ≠ m1 := fun q hq => h q (List.mem_cons_of_mem _ hq)
      show (applyMeasureRows source (applyMeasureCols r.1 source ms r.2) t).find? _ = _
      rw [find?_applyMeasureRows_ne source e1 s1 t _ ht]
      exact find?_applyMeasureCols_ne r.1 source e1 s1 r.2 ms h1

/-- Claim C6: a measures write that does not specify measure `m1` leaves
`m1`'s previously stored value unchanged when read back, for every
experiment and source — partial measure writes are additive and never
clear unspecified measure columns. -/
theorem claim_C6 (st : Store) (source : SourceId) (rows : List MeasureInputRow)
    (st' : Store) (m1 : VarName)
    (h : write_experiment_measures st source rows = .ok st')
    (hm : ∀ r ∈ rows, ∀ p ∈ r.2, p.1 ≠ m1)
    (e : ExpId) (s1 : SourceId) :
    lookupMeasureValue st' e m1 s1 = lookupMeasureValue st e m1 s1 := by
  unfold write_experiment_measures at h
  split at h
  · have hst' : st' = { st with measures := applyMeasureRows source st.measures rows } := by
      cases h
      rfl
    subst hst'
    unfold lookupMeasureValue
    exact congrArg (Option.map _) (find?_applyMeasureRows_ne source e s1 rows st.measures hm)
  · exact absurd h (by simp)

theorem claim_C6_witness :
    lookupMeasureValue
      ⟨⟨"s", ["x"], ["m1", "m2"]⟩, [(0, [0])], 1, [],
        [⟨0, "m1", 0, 7, true⟩, ⟨0, "m2", 0, 5, true⟩]⟩ 0 "m1" 0 =
    lookupMeasureValue
      ⟨⟨"s", ["x"], ["m1", "m2"]⟩, [(0, [0])], 1, [], [⟨0, "m1", 0, 7, true⟩]⟩ 0 "m1" 0 :=
  claim_C6 ⟨⟨"s", ["x"], ["m1", "m2"]⟩, [(0, [0])], 1, [], [⟨0, "m1", 0, 7, true⟩]⟩
    0 [(0, [("m2", 5)])]
    ⟨⟨"s", ["x"], ["m1", "m2"]⟩, [(0, [0])], 1, [],
      [⟨0, "m1", 0, 7, true⟩, ⟨0, "m2", 0, 5, true⟩]⟩
    "m1" rfl (by decide) 0 0

/-! ### Schema-violation lemmas -/

theorem canonicalize_error_eq {sc : Scope} {row : ParamRow} {e : DbError}
    (h : canonicalize sc row = .error e) : e = .keyError := by
  unfold canonicalize at h
  split at h
  · exact absurd h (by simp)
  · cases h
    rfl

theorem canonicalize_fails {sc : Scope} {row : ParamRow}
    (h : (∃ p ∈ row, p.1 ∉ sc.inputs) ∨ (∃ v ∈ sc.inputs, lookupVar row v = none)) :
    canonicalize sc row = .error .keyError := by
  unfold canonicalize
  rw [if_neg]
  rintro ⟨h1, h2⟩
  rcases h with ⟨p, hp, hnot⟩ | ⟨v, hv, hnone⟩
  · exact hnot (h1 p hp)
  · have := h2 v hv
    rw [hnone] at this
    simp at this

theorem mapM_canonicalize_error (sc : Scope) :
    ∀ (rows : List ParamRow),
      (∃ row ∈ rows, canonicalize sc row = .error .keyError) →
      rows.mapM (canonicalize sc) = .error .keyError
  | [], h => by
      obtain ⟨row, hrow, _⟩ := h
      exact absurd hrow (List.not_mem_nil row)
  | row :: rest, h => by
      rw [List.mapM_cons]
      cases hc : canonicalize sc row with
      | error e =>
          obtain rfl : e = DbError.keyError := canonicalize_error_eq hc
          rfl
      | ok t =>
          obtain ⟨row', hrow', herr⟩ := h
          have hrest : ∃ r ∈ rest, canonicalize sc r = .error .keyError := by
            cases hrow' with
            | head => rw [hc] at herr; exact absurd herr (by simp)
            | tail _ hmem => exact ⟨row', hmem, herr⟩
          rw [mapM_canonicalize_error sc rest hrest]
          rfl

/-- Claim C8: a parameter-table write in which a declared input variable is
missing from some row, or an undeclared column is present in some row,
fails synchronously with the schema-violation (`KeyError`) error before
any partial write is committed — no store is produced, so the caller's
prior state is untouched. -/
theorem claim_C8 (st : Store) (design : String) (rows : List ParamRow)
    (h : ∃ row ∈ rows, (∃ p ∈ row, p.1 ∉ st.scope.inputs) ∨
         (∃ v ∈ st.scope.inputs, lookupVar row v = none)) :
    write_experiment_parameters st design rows = .error .keyError := by
  unfold write_experiment_parameters
  have herr : rows.mapM (canonicalize st.scope) = .error .keyError := by
    apply mapM_canonicalize_error
    obtain ⟨row, hrow, hbad⟩ := h
    exact ⟨row, hrow, canonicalize_fails hbad⟩
  rw [herr]

theorem claim_C8_witness :
    write_experiment_parameters storeEx0 "lhs" [[("y", 1)]] = .error .keyError :=
  claim_C8 storeEx0 "lhs" [[("y", 1)]]
    ⟨[("y", 1)], List.mem_singleton.mpr rfl, Or.inl ⟨("y", 1), List.mem_singleton.mpr rfl, by decide⟩⟩

/-! ### Version gate lemmas -/

theorem migrateTo_version (v : Nat) :
    ∀ (d : OnDisk), d.version ≤ v → (migrateTo v d).version = v := by
  refine migrateTo.induct v (fun d => d.version ≤ v → (migrateTo v d).version = v) ?_ ?_
  · intro d hlt ih h
    rw [migrateTo, if_pos hlt]
    exact ih (by simp only [migrateOne]; omega)
  · intro d hge h
    rw [migrateTo, if_neg hge]
    omega

/-- Claim C7: opening a backing store whose stored schema-version marker is
newer than the engine's version fails with the version error; opening one
with an older marker succeeds, applying the migration chain up to the
engine's version, and reports the non-fatal version-mismatch warning flag
instead of failing. -/
theorem claim_C7 (engineVersion : Nat) (d : OnDisk) :
    (engineVersion < d.version → openStore engineVersion d = .error .versionTooNew) ∧
    (d.version < engineVersion →
      ∃ d', openStore engineVersion d = .ok (d', true) ∧ d'.version = engineVersion) := by
  constructor
  · intro h
    unfold openStore
    rw [if_pos h]
  · intro h
    unfold openStore
    rw [if_neg (by omega), if_pos h]
    exact ⟨_, rfl, migrateTo_version engineVersion d (le_of_lt h)⟩

theorem claim_C7_witness :
    openStore 2 ⟨3, storeEx0⟩ = .error .versionTooNew ∧
    (∃ d', openStore 2 ⟨1, storeEx0⟩ = .ok (d', true) ∧ d'.version = 2) :=
  ⟨(claim_C7 2 ⟨3, storeEx0⟩).1 (by decide),
   (claim_C7 2 ⟨1, storeEx0⟩).2 (by decide)⟩

/-- Claim C9: calling `read_experiments`, `read_experiment_parameters`, or
`read_experiment_measures` on an `AbstractCoreModel` with no `db` argument
while the model has no default database raises `ValueError` — no store is
consulted and no state changes. -/
theorem claim_C9 (m : AbstractCoreModel) (design : String) (h : m.db = none) :
    m.read_experiments design none = .error .valueError ∧
    m.read_experiment_parameters design none = .error .valueError ∧
    m.read_experiment_measures design none = .error .valueError := by
  have hr : resolveDb m none = none := h
  refine ⟨?_, ?_, ?_⟩
  · unfold AbstractCoreModel.read_experiments
    rw [hr]
  · unfold AbstractCoreModel.read_experiment_parameters
    rw [hr]
  · unfold AbstractCoreModel.read_experiment_measures
    rw [hr]

theorem claim_C9_witness :
    (AbstractCoreModel.mk0 none scopeEx).read_experiments "lhs" none =
      .error .valueError ∧
    (AbstractCoreModel.mk0 none scopeEx).read_experiment_parameters "lhs" none =
      .error .valueError ∧
    (AbstractCoreModel.mk0 none scopeEx).read_experiment_measures "lhs" none =
      .error .valueError :=
  claim_C9 (AbstractCoreModel.mk0 none scopeEx) "lhs" rfl

/-! ### Source-id tracking lemmas -/

theorem mem_upsertMeasure_source {ms : List MeasureRow} {e : ExpId} {m : VarName}
    {s : SourceId} {v : Value} {vd : Bool} :
    ∀ r' ∈ upsertMeasure ms e m s v vd, r' ∈ ms ∨ r'.source = s := by
  intro r' hr'
  unfold upsertMeasure at hr'
  by_cases hany : ms.any (fun r => keyMatch r e m s)
  · rw [if_pos hany] at hr'
    obtain ⟨r, hr, heq⟩ := List.mem_map.mp hr'
    by_cases hk : keyMatch r e m s
    · rw [if_pos hk] at heq
      right
      rw [← heq]
      exact (of_decide_eq_true hk).2.2
    · rw [if_neg hk] at heq
      left
      rw [← heq]
      exact hr
  · rw [if_neg hany] at hr'
    rcases List.mem_append.mp hr' with hl | hr
    · exact Or.inl hl
    · right
      rw [List.mem_singleton] at hr
      rw [hr]

theorem mem_applyMeasureCols_source (e0 : ExpId) (source : SourceId) :
    ∀ (cols : List (VarName × Value)) (ms : List MeasureRow),
      ∀ r' ∈ applyMeasureCols e0 source ms cols, r' ∈ ms ∨ r'.source = source
  | [], _, _, hr' => Or.inl hr'
  | p :: t, ms, r', hr' => by
      have hr2 : r' ∈ applyMeasureCols e0 source
          (upsertMeasure ms e0 p.1 source p.2 true) t := hr'
      rcases mem_applyMeasureCols_source e0 source t _ r' hr2 with hu | hs
      · exact mem_upsertMeasure_source r' hu
      · exact Or.inr hs

theorem mem_applyMeasureRows_source (source : SourceId) :
    ∀ (rows : List MeasureInputRow) (ms : List MeasureRow),
      ∀ r' ∈ applyMeasureRows source ms rows, r' ∈ ms ∨ r'.source = source
  | [], _, _, hr' => Or.inl hr'
  | r :: t, ms, r', hr' => by
      have hr2 : r' ∈ applyMeasureRows source
          (applyMeasureCols r.1 source ms r.2) t := hr'
      rcases mem_applyMeasureRows_source source t _ r' hr2 with hu | hs
      · exact mem_applyMeasureCols_source r.1 source r.2 ms r' hu
      · exact Or.inr hs

/-- Claim C10: when a `run_experiments` call stores results to a database,
every stored outcome row is written under a source id equal to the model's
`metamodel_id` (every measure row of the resulting store is either a
pre-existing row or carries source id `metamodel_id`); in particular, a
surrogate model (`metamodel_id ≠ 0`) never records a new measure value
under the authoritative source id 0. -/
theorem claim_C10 (m : AbstractCoreModel) (dbArg : Option Store) (st st' : Store)
    (outcomes : List MeasureInputRow)
    (hres : resolveDb m dbArg = some st)
    (hrun : m.run_experiments dbArg outcomes = .ok (some st')) :
    (∀ r ∈ st'.measures, r ∈ st.measures ∨ r.source = m.metamodel_id) ∧
    (m.metamodel_id ≠ 0 → ∀ r ∈ st'.measures, r.source = 0 → r ∈ st.measures) := by
  unfold AbstractCoreModel.run_experiments at hrun
  rw [hres] at hrun
  dsimp only at hrun
  cases hw : write_experiment_measures st m.metamodel_id outcomes with
  | error e =>
      rw [hw] at hrun
      exact absurd hrun (by simp)
  | ok st2 =>
      rw [hw] at hrun
      simp only [Except.ok.injEq, Option.some.injEq] at hrun
      rw [hrun] at hw
      unfold write_experiment_measures at hw
      split at hw
      · have hst' : st' = { st with measures := applyMeasureRows m.metamodel_id st.measures outcomes } := by
          cases hw
          rfl
        subst hst'
        have hmem : ∀ r ∈ applyMeasureRows m.metamodel_id st.measures outcomes,
            r ∈ st.measures ∨ r.source = m.metamodel_id :=
          mem_applyMeasureRows_source m.metamodel_id outcomes st.measures
        refine ⟨hmem, ?_⟩
        intro hmm r hr hr0
        rcases hmem r hr with hin | hsrc
        · exact hin
        · exact absurd (hr0 ▸ hsrc) (fun hc => hmm hc.symm)
      · exact absurd hw (by simp)

theorem claim_C10_witness :
    (∀ r ∈ (⟨scopeEx, [(0, [0])], 1, [], [⟨0, "m", 1, 9, true⟩]⟩ : Store).measures,
        r ∈ (⟨scopeEx, [(0, [0])], 1, [], []⟩ : Store).measures ∨ r.source = 1) ∧
    (∀ r ∈ (⟨scopeEx, [(0, [0])], 1, [], [⟨0, "m", 1, 9, true⟩]⟩ : Store).measures,
        r.source = 0 → r ∈ (⟨scopeEx, [(0, [0])], 1, [], []⟩ : Store).measures) :=
  ⟨(claim_C10 ⟨some ⟨scopeEx, [(0, [0])], 1, [], []⟩, scopeEx, 1⟩ none
      ⟨scopeEx, [(0, [0])], 1, [], []⟩
      ⟨scopeEx, [(0, [0])], 1, [], [⟨0, "m", 1, 9, true⟩]⟩
      [(0, [("m", 9)])] rfl rfl).1,
   (claim_C10 ⟨some ⟨scopeEx, [(0, [0])], 1, [], []⟩, scopeEx, 1⟩ none
      ⟨scopeEx, [(0, [0])], 1, [], []⟩
      ⟨scopeEx, [(0, [0])], 1, [], [⟨0, "m", 1, 9, true⟩]⟩
      [(0, [("m", 9)])] rfl rfl).2 (by decide)⟩

/-! ### Source ambiguity -/

theorem ambiguousSources_of_two {rows : List MeasureRow} {r1 r2 : MeasureRow}
    (h1 : r1 ∈ rows) (h2 : r2 ∈ rows) (hm : r1.measure = r2.measure)
    (hs : r1.source ≠ r2.source) : ambiguousSources rows = true := by
  unfold ambiguousSources
  rw [List.any_eq_true]
  refine ⟨r1, h1, ?_⟩
  rw [List.any_eq_true]
  refine ⟨r2, h2, ?_⟩
  simp [hm, Ne.symm hs]

/-- Claim C2: when some measure of a design holds values from more than
one source, a measures read that omits the source argument fails with the
ambiguous-source error rather than silently picking one; a read with an
explicit `source = s` succeeds and returns exactly source `s`'s rows; and
`read_experiment_measure_sources` returns exactly the distinct source ids
holding data for the design. -/
theorem claim_C2 (st : Store) (design : String) (r1 r2 : MeasureRow)
    (h1 : r1 ∈ rowsForDesign st design true) (h2 : r2 ∈ rowsForDesign st design true)
    (hm : r1.measure = r2.measure) (hs : r1.source ≠ r2.source) :
    read_experiment_measures st design none = .error .ambiguousSource ∧
    (∀ s, ∃ out, read_experiment_measures st design (some s) = .ok out ∧
      ∀ r, r ∈ out ↔ r ∈ rowsForDesign st design true ∧ r.source = s) ∧
    (∀ s, s ∈ read_experiment_measure_sources st design ↔
      ∃ r ∈ rowsForDesign st design true, r.source = s) := by
  refine ⟨?_, ?_, ?_⟩
  · unfold read_experiment_measures
    dsimp only
    rw [if_pos (ambiguousSources_of_two h1 h2 hm hs)]
  · intro s
    refine ⟨_, rfl, ?_⟩
    intro r
    simp [List.mem_filter]
  · intro s
    unfold read_experiment_measure_sources
    rw [List.mem_dedup]
    simp [List.mem_map]

theorem claim_C2_witness :
    read_experiment_measures
      ⟨scopeEx, [(0, [0])], 1, [("d", [0])],
        [⟨0, "m", 0, 1, true⟩, ⟨0, "m", 1, 2, true⟩]⟩ "d" none =
      .error .ambiguousSource ∧
    (∃ out, read_experiment_measures
      ⟨scopeEx, [(0, [0])], 1, [("d", [0])],
        [⟨0, "m", 0, 1, true⟩, ⟨0, "m", 1, 2, true⟩]⟩ "d" (some 0) = .ok out ∧
      ∀ r, r ∈ out ↔ r ∈ rowsForDesign
        ⟨scopeEx, [(0, [0])], 1, [("d", [0])],
          [⟨0, "m", 0, 1, true⟩, ⟨0, "m", 1, 2, true⟩]⟩ "d" true ∧ r.source = 0) ∧
    (1 ∈ read_experiment_measure_sources
      ⟨scopeEx, [(0, [0])], 1, [("d", [0])],
        [⟨0, "m", 0, 1, true⟩, ⟨0, "m", 1, 2, true⟩]⟩ "d" ↔
      ∃ r ∈ rowsForDesign
        ⟨scopeEx, [(0, [0])], 1, [("d", [0])],
          [⟨0, "m", 0, 1, true⟩, ⟨0, "m", 1, 2, true⟩]⟩ "d" true, r.source = 1) :=
  ⟨(claim_C2 ⟨scopeEx, [(0, [0])], 1, [("d", [0])],
      [⟨0, "m", 0, 1, true⟩, ⟨0, "m", 1, 2, true⟩]⟩ "d"
      ⟨0, "m", 0, 1, true⟩ ⟨0, "m", 1, 2, true⟩
      (by decide) (by decide) (by decide) (by decide)).1,
   (claim_C2 ⟨scopeEx, [(0, [0])], 1, [("d", [0])],
      [⟨0, "m", 0, 1, true⟩, ⟨0, "m", 1, 2, true⟩]⟩ "d"
      ⟨0, "m", 0, 1, true⟩ ⟨0, "m", 1, 2, true⟩
      (by decide) (by decide) (by decide) (by decide)).2.1 0,
   (claim_C2 ⟨scopeEx, [(0, [0])], 1, [("d", [0])],
      [⟨0, "m", 0, 1, true⟩, ⟨0, "m", 1, 2, true⟩]⟩ "d"
      ⟨0, "m", 0, 1, true⟩ ⟨0, "m", 1, 2, true⟩
      (by decide) (by decide) (by decide) (by decide)).2.2 1⟩

/-! ### Merge engine lemmas -/

theorem findExpId_entry {identity : List (ExpId × List Value)} {t : List Value}
    {e : ExpId} (h : findExpId identity t = some e) :
    ∃ q ∈ identity, q.1 = e ∧ q.2 = t := by
  unfold findExpId at h
  cases hf : identity.find? (fun p => decide (p.2 = t)) with
  | none => rw [hf] at h; exact absurd h (by simp)
  | some q =>
      rw [hf] at h
      simp only [Option.map_some', Option.some.injEq] at h
      refine ⟨q, List.mem_of_find?_eq_some hf, h, ?_⟩
      have hp := List.find?_some hf
      simpa using hp

theorem expTuple_entry {donor : Store} {e : ExpId} {t : List Value}
    (h : expTuple donor e = some t) : ∃ q ∈ donor.identity, q.1 = e ∧ q.2 = t := by
  unfold expTuple at h
  cases hf : donor.identity.find? (fun p => decide (p.1 = e)) with
  | none => rw [hf] at h; exact absurd h (by simp)
  | some q =>
      rw [hf] at h
      simp only [Option.map_some', Option.some.injEq] at h
      refine ⟨q, List.mem_of_find?_eq_some hf, ?_, h⟩
      have hp := List.find?_some hf
      simpa using hp

theorem findExpId_isSome_of_entry {identity : List (ExpId × List Value)}
    {t : List Value} {q : ExpId × List Value} (hq : q ∈ identity) (ht : q.2 = t) :
    (findExpId identity t).isSome := by
  unfold findExpId
  rw [Option.isSome_map']
  rw [List.find?_isSome]
  exact ⟨q, hq, by simp [ht]⟩

theorem findExpId_inj {identity : List (ExpId × List Value)}
    (hnd : (identity.map Prod.fst).Nodup) {t1 t2 : List Value} {e : ExpId}
    (h1 : findExpId identity t1 = some e) (h2 : findExpId identity t2 = some e) :
    t1 = t2 := by
  obtain ⟨q1, hq1, he1, ht1⟩ := findExpId_entry h1
  obtain ⟨q2, hq2, he2, ht2⟩ := findExpId_entry h2
  have hq : q1 = q2 := List.inj_on_of_nodup_map hnd hq1 hq2 (by rw [he1, he2])
  rw [← ht1, ← ht2, hq]

theorem mapM_expTuple_some (donor : Store) :
    ∀ (ids : List ExpId), (∀ e ∈ ids, ∃ q ∈ donor.identity, q.1 = e) →
      ∃ ts, ids.mapM (expTuple donor) = some ts ∧
        List.Forall₂ (fun e t => expTuple donor e = some t) ids ts
  | [], _ => ⟨[], rfl, List.Forall₂.nil⟩
  | e :: rest, h => by
      obtain ⟨q, hq, hqe⟩ := h e (List.mem_cons_self _ _)
      have hsome : (expTuple donor e).isSome := by
        unfold expTuple
        rw [Option.isSome_map']
        rw [List.find?_isSome]
        exact ⟨q, hq, by simp [hqe]⟩
      obtain ⟨t, ht⟩ := Option.isSome_iff_exists.mp hsome
      obtain ⟨ts, hts, hfa⟩ :=
        mapM_expTuple_some donor rest (fun x hx => h x (List.mem_cons_of_mem _ hx))
      refine ⟨t :: ts, ?_, List.Forall₂.cons ht hfa⟩
      rw [List.mapM_cons, ht, hts]
      rfl

theorem forall2_comp {α β γ : Type} {R : α → β → Prop} {S : β → γ → Prop} :
    ∀ {l1 : List α} {l2 : List β} {l3 : List γ},
      List.Forall₂ R l1 l2 → List.Forall₂ S l2 l3 →
      List.Forall₂ (fun a c => ∃ b, R a b ∧ S b c) l1 l3
  | _, _, _, List.Forall₂.nil, List.Forall₂.nil => List.Forall₂.nil
  | _, _, _, List.Forall₂.cons hr hrs, List.Forall₂.cons hs hss =>
      List.Forall₂.cons ⟨_, hr, hs⟩ (forall2_comp hrs hss)

theorem remapId_spec {R : ExpId → ExpId → Prop} :
    ∀ {ids es : List ExpId}, List.Forall₂ R ids es →
      ∀ e ∈ ids, R e (remapId (ids.zip es) e)
  | _, _, List.Forall₂.nil, e, he => absurd he (List.not_mem_nil e)
  | e0 :: ids', a0 :: es', List.Forall₂.cons h0 hrest, e, he => by
      unfold remapId
      by_cases heq : e = e0
      · subst heq
        rw [List.zip_cons_cons, List.find?_cons_of_pos _ (by simp)]
        simpa using h0
      · rw [List.zip_cons_cons, List.find?_cons_of_neg _ (by simp [Ne.symm heq])]
        have he' : e ∈ ids' := by
          cases he with
          | head => exact absurd rfl heq
          | tail _ h => exact h
        exact remapId_spec hrest e he'

theorem mem_upsert_self (ms : List MeasureRow) (e : ExpId) (m : VarName)
    (s : SourceId) (v : Value) (vd : Bool) :
    (⟨e, m, s, v, vd⟩ : MeasureRow) ∈ upsertMeasure ms e m s v vd := by
  unfold upsertMeasure
  by_cases hany : ms.any (fun r => keyMatch r e m s)
  · rw [if_pos hany]
    obtain ⟨r, hr, hk⟩ := List.any_eq_true.mp hany
    have hrepl : (⟨e, m, s, v, vd⟩ : MeasureRow) =
        if keyMatch r e m s then { r with value := v, valid := vd } else r := by
      rw [if_pos hk]
      obtain ⟨h1, h2, h3⟩ := of_decide_eq_true hk
      cases r
      simp only at h1 h2 h3
      subst h1
      subst h2
      subst h3
      rfl
    rw [hrepl]
    exact List.mem_map_of_mem _ hr
  · rw [if_neg hany]
    exact List.mem_append_right _ (List.mem_singleton.mpr rfl)

theorem mem_upsert_of_not_key {ms : List MeasureRow} {w : MeasureRow}
    (hw : w ∈ ms) {e : ExpId} {m : VarName} {s : SourceId} (v : Value) (vd : Bool)
    (hnk : ¬(keyMatch w e m s = true)) : w ∈ upsertMeasure ms e m s v vd := by
  unfold upsertMeasure
  by_cases hany : ms.any (fun r => keyMatch r e m s)
  · rw [if_pos hany]
    have : w = if keyMatch w e m s then { w with value := v, valid := vd } else w := by
      rw [if_neg hnk]
    rw [this]
    exact List.mem_map_of_mem _ hw
  · rw [if_neg hany]
    exact List.mem_append_left _ hw

theorem assignOrReuse_wf {st : Store} {t : List Value}
    (h2 : (st.identity.map Prod.fst).Nodup)
    (h3 : ∀ p ∈ st.identity, p.1 < st.nextId) :
    ((assignOrReuse st t).2.identity.map Prod.fst).Nodup ∧
    (∀ p ∈ (assignOrReuse st t).2.identity, p.1 < (assignOrReuse st t).2.nextId) := by
  unfold assignOrReuse
  cases hf : findExpId st.identity t with
  | some e => exact ⟨h2, h3⟩
  | none =>
      simp only
      constructor
      · rw [List.map_append]
        rw [List.nodup_append]
        refine ⟨h2, List.nodup_singleton _, ?_⟩
        intro x hx hx'
        simp only [List.map_cons, List.map_nil, List.mem_singleton] at hx'
        subst hx'
        obtain ⟨p, hp, hpe⟩ := List.mem_map.mp hx
        exact absurd (hpe ▸ h3 p hp) (lt_irrefl _)
      · intro p hp
        rcases List.mem_append.mp hp with hl | hr
        · exact Nat.lt_succ_of_lt (h3 p hl)
        · rw [List.mem_singleton] at hr
          subst hr
          exact Nat.lt_succ_self _

theorem assignAll_wf {st : Store} {ts : List (List Value)}
    (h2 : (st.identity.map Prod.fst).Nodup)
    (h3 : ∀ p ∈ st.identity, p.1 < st.nextId) :
    ((assignAll st ts).2.identity.map Prod.fst).Nodup ∧
    (∀ p ∈ (assignAll st ts).2.identity, p.1 < (assignAll st ts).2.nextId) := by
  induction ts generalizing st with
  | nil => exact ⟨h2, h3⟩
  | cons t rest ih =>
      simp only [assignAll]
      obtain ⟨h2', h3'⟩ := assignOrReuse_wf h2 h3
      exact ih h2' h3'

/-- A donor measure row re-keyed into a store state: the donor
experiment's tuple resolves in the identity table `I` and the re-keyed
row with the same measure, source, value and validity is among `ms`. -/
def donorPresentIn (donor : Store) (r : MeasureRow)
    (I : List (ExpId × List Value)) (ms : List MeasureRow) : Prop :=
  ∃ t e', expTuple donor r.exp = some t ∧ findExpId I t = some e' ∧
    (⟨e', r.measure, r.source, r.value, r.valid⟩ : MeasureRow) ∈ ms

theorem forall2_mem_right {α β : Type} {R : α → β → Prop} :
    ∀ {l1 : List α} {l2 : List β}, List.Forall₂ R l1 l2 →
      ∀ b ∈ l2, ∃ a ∈ l1, R a b
  | _, _, List.Forall₂.nil, b, hb => absurd hb (List.not_mem_nil b)
  | _, _, List.Forall₂.cons h0 hrest, b, hb => by
      cases hb with
      | head => exact ⟨_, List.mem_cons_self _ _, h0⟩
      | tail _ hb' =>
          obtain ⟨a, ha, har⟩ := forall2_mem_right hrest b hb'
          exact ⟨a, List.mem_cons_of_mem _ ha, har⟩

theorem donorPresent_upsert_step {donor : Store} {ids : List ExpId}
    {pairs : List (ExpId × ExpId)} {I : List (ExpId × List Value)}
    (hres : ∀ eD ∈ ids, ∃ t, expTuple donor eD = some t ∧
      findExpId I t = some (remapId pairs eD))
    (hIinj : ∀ t1 t2 e, findExpId I t1 = some e → findExpId I t2 = some e → t1 = t2)
    (hDinj : ∀ e1 e2 t, expTuple donor e1 = some t → expTuple donor e2 = some t → e1 = e2)
    (hD2 : ∀ a ∈ donor.measures, ∀ b ∈ donor.measures,
      a.exp = b.exp → a.measure = b.measure → a.source = b.source → a = b)
    {rd : MeasureRow} (hrd : rd ∈ donor.measures) (hrdids : rd.exp ∈ ids)
    {r : MeasureRow} (hr : r ∈ donor.measures) {ms0 : List MeasureRow}
    (hp : donorPresentIn donor r I ms0) :
    donorPresentIn donor r I
      (upsertMeasure ms0 (remapId pairs rd.exp) rd.measure rd.source rd.value rd.valid) := by
  obtain ⟨t, e', hexp, hfind, hmem⟩ := hp
  by_cases hk : keyMatch ⟨e', r.measure, r.source, r.value, r.valid⟩
      (remapId pairs rd.exp) rd.measure rd.source = true
  · obtain ⟨he', hm, hs⟩ := of_decide_eq_true hk
    simp only at he' hm hs
    obtain ⟨trd, hexprd, hfindrd⟩ := hres rd.exp hrdids
    have hfind2 : findExpId I trd = some e' := by
      rw [hfindrd, ← he']
    have ht : t = trd := hIinj t trd e' hfind hfind2
    have hexp2 : expTuple donor rd.exp = some t := by rw [ht]; exact hexprd
    have hee : r.exp = rd.exp := hDinj r.exp rd.exp t hexp hexp2
    have hrrd : r = rd := hD2 r hr rd hrd hee hm hs
    refine ⟨t, e', hexp, hfind, ?_⟩
    have hself := mem_upsert_self ms0 (remapId pairs rd.exp) rd.measure rd.source
      rd.value rd.valid
    have hrow : (⟨remapId pairs rd.exp, rd.measure, rd.source, rd.value, rd.valid⟩ :
        MeasureRow) = ⟨e', r.measure, r.source, r.value, r.valid⟩ := by
      rw [hrrd, he']
    rw [← hrow]
    exact hself
  · exact ⟨t, e', hexp, hfind, mem_upsert_of_not_key hmem _ _ hk⟩

theorem fold_measures_invariant {donor : Store} {ids : List ExpId}
    {pairs : List (ExpId × ExpId)} {I : List (ExpId × List Value)}
    (hres : ∀ eD ∈ ids, ∃ t, expTuple donor eD = some t ∧
      findExpId I t = some (remapId pairs eD))
    (hIinj : ∀ t1 t2 e, findExpId I t1 = some e → findExpId I t2 = some e → t1 = t2)
    (hDinj : ∀ e1 e2 t, expTuple donor e1 = some t → expTuple donor e2 = some t → e1 = e2)
    (hD2 : ∀ a ∈ donor.measures, ∀ b ∈ donor.measures,
      a.exp = b.exp → a.measure = b.measure → a.source = b.source → a = b) :
    ∀ (rs : List MeasureRow) (ms0 : List MeasureRow),
      (∀ rd ∈ rs, rd ∈ donor.measures ∧ rd.exp ∈ ids) →
      (∀ r ∈ donor.measures, donorPresentIn donor r I ms0 →
        donorPresentIn donor r I
          (rs.foldl (fun ms rr =>
            upsertMeasure ms (remapId pairs rr.exp) rr.measure rr.source rr.value rr.valid) ms0)) ∧
      (∀ r ∈ rs, donorPresentIn donor r I
          (rs.foldl (fun ms rr =>
            upsertMeasure ms (remapId pairs rr.exp) rr.measure rr.source rr.value rr.valid) ms0))
  | [], ms0, _ => ⟨fun _ _ hp => hp, fun r hr => absurd hr (List.not_mem_nil r)⟩
  | rd :: rs', ms0, hcond => by
      have hrdm : rd ∈ donor.measures := (hcond rd (List.mem_cons_self _ _)).1
      have hrdids : rd.exp ∈ ids := (hcond rd (List.mem_cons_self _ _)).2
      have hcond' : ∀ q ∈ rs', q ∈ donor.measures ∧ q.exp ∈ ids :=
        fun q hq => hcond q (List.mem_cons_of_mem _ hq)
      have ih := fold_measures_invariant hres hIinj hDinj hD2 rs'
        (upsertMeasure ms0 (remapId pairs rd.exp) rd.measure rd.source rd.value rd.valid)
        hcond'
      constructor
      · intro r hr hp
        exact ih.1 r hr
          (donorPresent_upsert_step hres hIinj hDinj hD2 hrdm hrdids hr hp)
      · intro r hr
        cases hr with
        | head =>
            obtain ⟨trd, hexprd, hfindrd⟩ := hres rd.exp hrdids
            have hstart : donorPresentIn donor rd I
                (upsertMeasure ms0 (remapId pairs rd.exp) rd.measure rd.source
                  rd.value rd.valid) :=
              ⟨trd, remapId pairs rd.exp, hexprd, hfindrd,
                mem_upsert_self ms0 (remapId pairs rd.exp) rd.measure rd.source
                  rd.value rd.valid⟩
            exact ih.1 rd hrdm hstart
        | tail _ hr' => exact ih.2 r hr'

theorem mergeDesign_step (st donor : Store) (nm : String) (ids : List ExpId)
    (hB : (st.identity.map Prod.fst).Nodup)
    (hC : ∀ p ∈ st.identity, p.1 < st.nextId)
    (hDinj : ∀ e1 e2 t, expTuple donor e1 = some t → expTuple donor e2 = some t → e1 = e2)
    (hD2 : ∀ a ∈ donor.measures, ∀ b ∈ donor.measures,
      a.exp = b.exp → a.measure = b.measure → a.source = b.source → a = b)
    (hids : ∀ e ∈ ids, ∃ q ∈ donor.identity, q.1 = e)
    (hlen : ∀ p ∈ donor.identity, p.2.length = st.scope.inputs.length) :
    (∃ ext, (mergeDesign st donor nm ids).identity = st.identity ++ ext) ∧
    (((mergeDesign st donor nm ids).identity.map Prod.fst).Nodup) ∧
    (∀ p ∈ (mergeDesign st donor nm ids).identity,
        p.1 < (mergeDesign st donor nm ids).nextId) ∧
    ((mergeDesign st donor nm ids).scope = st.scope) ∧
    (∀ r ∈ donor.measures, donorPresentIn donor r st.identity st.measures →
        donorPresentIn donor r (mergeDesign st donor nm ids).identity
          (mergeDesign st donor nm ids).measures) ∧
    (∀ e ∈ ids, ∀ t, expTuple donor e = some t →
        (findExpId (mergeDesign st donor nm ids).identity t).isSome) ∧
    (∀ r ∈ donor.measures, r.exp ∈ ids →
        donorPresentIn donor r (mergeDesign st donor nm ids).identity
          (mergeDesign st donor nm ids).measures) := by
  obtain ⟨ts, hmapM, hfa⟩ := mapM_expTuple_some donor ids hids
  have hval : ts.all (fun t => t.length = st.scope.inputs.length) = true := by
    rw [List.all_eq_true]
    intro t ht
    obtain ⟨e, _, hexp⟩ := forall2_mem_right hfa t ht
    obtain ⟨q, hq, _, hqt⟩ := expTuple_entry hexp
    rw [decide_eq_true_eq, ← hqt]
    exact hlen q hq
  have hunfold : mergeDesign st donor nm ids =
      { (assignAll st ts).2 with
          designs := (registerDesign (assignAll st ts).2.designs nm (assignAll st ts).1).2,
          measures := (donor.measures.filter (fun r => decide (r.exp ∈ ids))).foldl
            (fun ms r => upsertMeasure ms (remapId (ids.zip (assignAll st ts).1) r.exp)
              r.measure r.source r.value r.valid)
            (assignAll st ts).2.measures } := by
    unfold mergeDesign
    rw [hmapM]
    dsimp only
    rw [if_pos hval]
  obtain ⟨ext, hext⟩ := assignAll_identity_append st ts
  obtain ⟨hB', hC'⟩ := assignAll_wf hB hC
  have hres0 := assignAll_resolves st ts
  have hcomp := forall2_comp hfa hres0
  have hres : ∀ e ∈ ids, ∃ t, expTuple donor e = some t ∧
      findExpId (assignAll st ts).2.identity t =
        some (remapId (ids.zip (assignAll st ts).1) e) :=
    fun e he => remapId_spec hcomp e he
  have hIinj : ∀ t1 t2 e, findExpId (assignAll st ts).2.identity t1 = some e →
      findExpId (assignAll st ts).2.identity t2 = some e → t1 = t2 :=
    fun t1 t2 e h1 h2 => findExpId_inj hB' h1 h2
  have hcond : ∀ rd ∈ donor.measures.filter (fun r => decide (r.exp ∈ ids)),
      rd ∈ donor.measures ∧ rd.exp ∈ ids := by
    intro rd hrd
    rw [List.mem_filter] at hrd
    exact ⟨hrd.1, of_decide_eq_true hrd.2⟩
  have hfold := fold_measures_invariant hres hIinj hDinj hD2
    (donor.measures.filter (fun r => decide (r.exp ∈ ids)))
    (assignAll st ts).2.measures hcond
  rw [hunfold]
  refine ⟨⟨ext, hext⟩, hB', hC', assignAll_scope st ts, ?_, ?_, ?_⟩
  · intro r hr hp
    obtain ⟨t, e', hexp, hfind, hmem⟩ := hp
    have hfind' : findExpId (assignAll st ts).2.identity t = some e' := by
      rw [hext]
      exact findExpId_append_of_some ext hfind
    have hmem' : (⟨e', r.measure, r.source, r.value, r.valid⟩ : MeasureRow) ∈
        (assignAll st ts).2.measures := by
      rw [assignAll_measures]
      exact hmem
    exact hfold.1 r hr ⟨t, e', hexp, hfind', hmem'⟩
  · intro e he t hexp
    obtain ⟨t0, hexp0, hfind0⟩ := hres e he
    have : t = t0 := by
      rw [hexp] at hexp0
      exact Option.some.inj hexp0
    rw [this, hfind0]
    rfl
  · intro r hr hrids
    have hmemf : r ∈ donor.measures.filter (fun q => decide (q.exp ∈ ids)) := by
      rw [List.mem_filter]
      exact ⟨hr, decide_eq_true hrids⟩
    exact hfold.2 r hmemf

theorem mergeFold (donor : Store)
    (hDinj : ∀ e1 e2 t, expTuple donor e1 = some t → expTuple donor e2 = some t → e1 = e2)
    (hD2 : ∀ a ∈ donor.measures, ∀ b ∈ donor.measures,
      a.exp = b.exp → a.measure = b.measure → a.source = b.source → a = b) :
    ∀ (ds : List (String × List ExpId)) (st : Store),
      ((st.identity.map Prod.fst).Nodup) →
      (∀ p ∈ st.identity, p.1 < st.nextId) →
      (∀ p ∈ donor.identity, p.2.length = st.scope.inputs.length) →
      (∀ d ∈ ds, ∀ e ∈ d.2, ∃ q ∈ donor.identity, q.1 = e) →
      (∃ ext, (ds.foldl (fun t d => mergeDesign t donor d.1 d.2) st).identity =
          st.identity ++ ext) ∧
      (((ds.foldl (fun t d => mergeDesign t donor d.1 d.2) st).identity.map Prod.fst).Nodup) ∧
      (∀ r ∈ donor.measures, donorPresentIn donor r st.identity st.measures →
        donorPresentIn donor r
          (ds.foldl (fun t d => mergeDesign t donor d.1 d.2) st).identity
          (ds.foldl (fun t d => mergeDesign t donor d.1 d.2) st).measures) ∧
      (∀ d ∈ ds, ∀ e ∈ d.2, ∀ t, expTuple donor e = some t →
        (findExpId (ds.foldl (fun t d => mergeDesign t donor d.1 d.2) st).identity t).isSome) ∧
      (∀ d ∈ ds, ∀ r ∈ donor.measures, r.exp ∈ d.2 →
        donorPresentIn donor r
          (ds.foldl (fun t d => mergeDesign t donor d.1 d.2) st).identity
          (ds.foldl (fun t d => mergeDesign t donor d.1 d.2) st).measures)
  | [], st, hB, _, _, _ =>
      ⟨⟨[], (List.append_nil _).symm⟩, hB, fun _ _ hp => hp,
        fun d hd => absurd hd (List.not_mem_nil d),
        fun d hd => absurd hd (List.not_mem_nil d)⟩
  | d0 :: ds', st, hB, hC, hlen, hds => by
      obtain ⟨⟨ext1, hext1⟩, hB1, hC1, hscope1, hpres1, hsolv1, hpresent1⟩ :=
        mergeDesign_step st donor d0.1 d0.2 hB hC hDinj hD2
          (hds d0 (List.mem_cons_self _ _)) hlen
      have hlen1 : ∀ p ∈ donor.identity,
          p.2.length = (mergeDesign st donor d0.1 d0.2).scope.inputs.length := by
        intro p hp
        rw [hscope1]
        exact hlen p hp
      have hds1 : ∀ d ∈ ds', ∀ e ∈ d.2, ∃ q ∈ donor.identity, q.1 = e :=
        fun d hd => hds d (List.mem_cons_of_mem _ hd)
      obtain ⟨⟨ext2, hext2⟩, hB2, hpres2, hsolv2, hpresent2⟩ :=
        mergeFold donor hDinj hD2 ds' (mergeDesign st donor d0.1 d0.2) hB1 hC1 hlen1 hds1
      refine ⟨⟨ext1 ++ ext2, ?_⟩, hB2, ?_, ?_, ?_⟩
      · rw [List.foldl_cons] at *
        rw [hext2, hext1, List.append_assoc]
      · intro r hr hp
        rw [List.foldl_cons]
        exact hpres2 r hr (hpres1 r hr hp)
      · intro d hd e he t hexp
        rw [List.foldl_cons]
        cases hd with
        | head =>
            have h1 := hsolv1 e he t hexp
            obtain ⟨e', he'⟩ := Option.isSome_iff_exists.mp h1
            have : findExpId (ds'.foldl (fun t d => mergeDesign t donor d.1 d.2)
                (mergeDesign st donor d0.1 d0.2)).identity t = some e' := by
              rw [hext2]
              exact findExpId_append_of_some ext2 he'
            rw [this]
            rfl
        | tail _ hd' => exact hsolv2 d hd' e he t hexp
      · intro d hd r hr hrd
        rw [List.foldl_cons]
        cases hd with
        | head => exact hpres2 r hr (hpresent1 r hr hrd)
        | tail _ hd' => exact hpresent2 d hd' r hr hrd

/-- Claim C3: merging a donor store into a target sharing a structurally
equal Scope re-keys each donor experiment through the target's identity
table — (i) input tuples already known to the target keep resolving to the
target's pre-existing experiment ids after the merge, (ii) the tuple of
every donor experiment belonging to a donor design resolves in the merged
identity table, and a tuple the target did not know receives an id that
collides with no pre-existing target id, and (iii) every donor measure
value of a merged design becomes present in the target under its
original, unrenumbered source id.  The hygiene hypotheses are the store
invariants: target ids are unique and below the mint counter, the donor
identity table is deduplicated, the donor measure store has one row per
(experiment, measure, source) key, donor design members resolve in the
donor identity table, and donor tuples have the declared width. -/
theorem claim_C3 (target donor merged : Store)
    (hmerge : merge_database target donor = .ok merged)
    (hT0 : (target.identity.map Prod.fst).Nodup)
    (hT1 : ∀ p ∈ target.identity, p.1 < target.nextId)
    (hD1 : ∀ q1 ∈ donor.identity, ∀ q2 ∈ donor.identity, q1.2 = q2.2 → q1.1 = q2.1)
    (hD2 : ∀ a ∈ donor.measures, ∀ b ∈ donor.measures,
      a.exp = b.exp → a.measure = b.measure → a.source = b.source → a = b)
    (hD3 : ∀ d ∈ donor.designs, ∀ e ∈ d.2, ∃ q ∈ donor.identity, q.1 = e)
    (hD4 : ∀ p ∈ donor.identity, p.2.length = donor.scope.inputs.length) :
    (∀ t e, findExpId target.identity t = some e →
       findExpId merged.identity t = some e) ∧
    (∀ d ∈ donor.designs, ∀ e ∈ d.2, ∀ t, expTuple donor e = some t →
       ∃ e', findExpId merged.identity t = some e' ∧
         (findExpId target.identity t = none → ∀ p ∈ target.identity, p.1 ≠ e')) ∧
    (∀ r ∈ donor.measures, (∃ d ∈ donor.designs, r.exp ∈ d.2) →
       ∃ r' ∈ merged.measures, r'.measure = r.measure ∧ r'.source = r.source ∧
         r'.value = r.value ∧ r'.valid = r.valid) := by
  unfold merge_database at hmerge
  split at hmerge
  case isFalse => exact absurd hmerge (by simp)
  case isTrue hscope =>
  simp only [Except.ok.injEq] at hmerge
  have hDinj : ∀ e1 e2 t, expTuple donor e1 = some t →
      expTuple donor e2 = some t → e1 = e2 := by
    intro e1 e2 t h1 h2
    obtain ⟨q1, hq1, hq1e, hq1t⟩ := expTuple_entry h1
    obtain ⟨q2, hq2, hq2e, hq2t⟩ := expTuple_entry h2
    rw [← hq1e, ← hq2e]
    exact hD1 q1 hq1 q2 hq2 (by rw [hq1t, hq2t])
  have hlen : ∀ p ∈ donor.identity, p.2.length = target.scope.inputs.length := by
    intro p hp
    rw [← hscope]
    exact hD4 p hp
  obtain ⟨⟨EXT, hEXT⟩, hNodup, hPres, hSolv, hPresent⟩ :=
    mergeFold donor hDinj hD2 donor.designs target hT0 hT1 hlen hD3
  rw [hmerge] at hEXT hNodup hSolv hPresent
  refine ⟨?_, ?_, ?_⟩
  · intro t e h
    rw [hEXT]
    exact findExpId_append_of_some EXT h
  · intro d hd e he t hexp
    have h1 := hSolv d hd e he t hexp
    obtain ⟨e', he'⟩ := Option.isSome_iff_exists.mp h1
    refine ⟨e', he', ?_⟩
    intro hnone p hp hpe
    obtain ⟨q, hq, hqe, hqt⟩ := findExpId_entry he'
    rw [hEXT] at hq
    rcases List.mem_append.mp hq with hqT | hqE
    · have := findExpId_isSome_of_entry hqT hqt
      rw [hnone] at this
      exact absurd this (by simp)
    · rw [hEXT, List.map_append] at hNodup
      rw [List.nodup_append] at hNodup
      exact hNodup.2.2 (List.mem_map_of_mem Prod.fst hp)
        (by rw [hpe, ← hqe]; exact List.mem_map_of_mem Prod.fst hqE)
  · intro r hr hd
    obtain ⟨d, hdm, hrd⟩ := hd
    obtain ⟨t, e', hexp, hfind, hmem⟩ := hPresent d hdm r hr hrd
    exact ⟨⟨e', r.measure, r.source, r.value, r.valid⟩, hmem, rfl, rfl, rfl, rfl⟩

theorem claim_C3_witness :
    findExpId [(0, [0]), (1, [5])] [0] = some 0 ∧
    (∃ e', findExpId [(0, [0]), (1, [5])] [5] = some e' ∧
      (findExpId [(0, [0])] [5] = none →
        ∀ p ∈ ([(0, [0])] : List (ExpId × List Value)), p.1 ≠ e')) ∧
    (∃ r' ∈ ([⟨0, "m", 0, 1, true⟩, ⟨0, "m", 1, 3, true⟩, ⟨1, "m", 0, 4, true⟩] :
        List MeasureRow),
      r'.measure = "m" ∧ r'.source = 0 ∧ r'.value = 4 ∧ r'.valid = true) :=
  ⟨(claim_C3 ⟨scopeEx, [(0, [0])], 1, [("d0", [0])], [⟨0, "m", 0, 1, true⟩]⟩
      ⟨scopeEx, [(0, [0]), (1, [5])], 2, [("d", [0, 1])],
        [⟨0, "m", 1, 3, true⟩, ⟨1, "m", 0, 4, true⟩]⟩
      ⟨scopeEx, [(0, [0]), (1, [5])], 2, [("d0", [0]), ("d", [0, 1])],
        [⟨0, "m", 0, 1, true⟩, ⟨0, "m", 1, 3, true⟩, ⟨1, "m", 0, 4, true⟩]⟩
      rfl (by decide) (by decide) (by decide) (by decide) (by decide) (by decide)).1
      [0] 0 rfl,
   (claim_C3 ⟨scopeEx, [(0, [0])], 1, [("d0", [0])], [⟨0, "m", 0, 1, true⟩]⟩
      ⟨scopeEx, [(0, [0]), (1, [5])], 2, [("d", [0, 1])],
        [⟨0, "m", 1, 3, true⟩, ⟨1, "m", 0, 4, true⟩]⟩
      ⟨scopeEx, [(0, [0]), (1, [5])], 2, [("d0", [0]), ("d", [0, 1])],
        [⟨0, "m", 0, 1, true⟩, ⟨0, "m", 1, 3, true⟩, ⟨1, "m", 0, 4, true⟩]⟩
      rfl (by decide) (by decide) (by decide) (by decide) (by decide) (by decide)).2.1
      ("d", [0, 1]) (by decide) 1 (by decide) [5] rfl,
   (claim_C3 ⟨scopeEx, [(0, [0])], 1, [("d0", [0])], [⟨0, "m", 0, 1, true⟩]⟩
      ⟨scopeEx, [(0, [0]), (1, [5])], 2, [("d", [0, 1])],
        [⟨0, "m", 1, 3, true⟩, ⟨1, "m", 0, 4, true⟩]⟩
      ⟨scopeEx, [(0, [0]), (1, [5])], 2, [("d0", [0]), ("d", [0, 1])],
        [⟨0, "m", 0, 1, true⟩, ⟨0, "m", 1, 3, true⟩, ⟨1, "m", 0, 4, true⟩]⟩
      rfl (by decide) (by decide) (by decide) (by decide) (by decide) (by decide)).2.2
      ⟨1, "m", 0, 4, true⟩ (by decide) ⟨("d", [0, 1]), by decide, by decide⟩⟩
